import Mathlib

/-!
Shallow embedding of the message-interpretation pipeline of
content-collection-skill (src/bot.py) and verification of the frozen
claims about it.

Strings are modelled as lists of characters (Python str indexing and
len are code-point based, as is List Char).  Python regular-expression
whitespace and case folding are modelled by explicit character tests:
the whitespace class is the standard Unicode whitespace set used by
str.isspace, and case-insensitive matching is modelled by ASCII
lowercasing (the noise keywords are CJK or ASCII, so this is faithful
on every character the patterns can distinguish).
-/

/-- Convert a string literal to the list-of-character representation. -/
def strL (s : String) : List Char := s.toList

/-- Model of the Python regex whitespace class for str patterns
(the characters matched by the \s class), by code point. -/
def isSpace (c : Char) : Bool :=
  (9 ≤ c.toNat && c.toNat ≤ 13) || c.toNat = 28 || c.toNat = 29 ||
  c.toNat = 30 || c.toNat = 31 || c.toNat = 32 || c.toNat = 133 ||
  c.toNat = 160 || c.toNat = 5760 || (8192 ≤ c.toNat && c.toNat ≤ 8202) ||
  c.toNat = 8232 || c.toNat = 8233 || c.toNat = 8239 || c.toNat = 8287 ||
  c.toNat = 12288

/-- ASCII lowercasing, modelling the case folding used by re.IGNORECASE
on the patterns of this program. -/
def lc (c : Char) : Char :=
  if 65 ≤ c.toNat ∧ c.toNat ≤ 90 then Char.ofNat (c.toNat + 32) else c

/-- Python str.strip from the left. -/
def ltrim (s : List Char) : List Char := s.dropWhile isSpace

/-- Python str.strip from the right. -/
def rtrim (s : List Char) : List Char := (s.reverse.dropWhile isSpace).reverse

/-- Python str.strip: remove leading and trailing whitespace. -/
def trim (s : List Char) : List Char := rtrim (ltrim s)

/-- Case-insensitive test that kw matches a prefix of s. -/
def ciStarts : List Char → List Char → Bool
  | [], _ => true
  | _ :: _, [] => false
  | k :: ks, c :: cs => (lc c = lc k) && ciStarts ks cs

/-- The dollar-anchor test of the noise patterns: after the matched
text, the dot-star run must reach the end of the string or a final
newline (re dot does not match a newline, and the dollar without
MULTILINE matches only at the end or before a final newline). -/
def tailOk : List Char → Bool
  | [] => true
  | c :: cs => if c = '\n' then cs.isEmpty else tailOk cs

/-- Comma class of the noise patterns. -/
def isComma (c : Char) : Bool := c = ',' || c = '，'

/-- Test of the noise-pattern body at a fixed position, without the
optional leading comma: optional whitespace, then the keyword
(case-insensitively), then a dot-star-dollar tail. -/
def matchCore (kw s : List Char) : Bool :=
  let t := s.dropWhile isSpace
  ciStarts kw t && tailOk (t.drop kw.length)

/-- Test of a full noise-pattern match starting at a fixed position. -/
def matchAt (kw s : List Char) : Bool :=
  matchCore kw s ||
    (match s with
     | c :: cs => isComma c && matchCore kw cs
     | [] => false)

/-- Leftmost starting position of a noise-pattern match, as found by
re.sub scanning left to right. -/
def findNoise (kw : List Char) : List Char → Option Nat
  | [] => if matchAt kw [] then some 0 else none
  | c :: cs =>
    if matchAt kw (c :: cs) then some 0
    else (findNoise kw cs).map (· + 1)

/-- Whether the last character of s is a newline. -/
def endsWithNl : List Char → Bool
  | [] => false
  | [c] => c = '\n'
  | _ :: c :: cs => endsWithNl (c :: cs)

/-- re.sub of one noise pattern with the empty replacement: a match
always extends to the end of the string (or to a final newline, which
is then kept), so the substitution keeps the prefix before the
leftmost match. -/
def subNoise (kw s : List Char) : List Char :=
  match findNoise kw s with
  | none => s
  | some m => s.take m ++ (if endsWithNl s then ['\n'] else [])

/-- One step of the noise loop of extract_message_parts:
re.sub of the pattern followed by str.strip. -/
def stepNoise (kw s : List Char) : List Char := trim (subNoise kw s)

/-- The keyword of each NOISE_PATTERNS entry of src/bot.py, in list
order; every pattern has the shape optional-comma, optional
whitespace, keyword, dot-star-dollar. -/
def NOISE_KEYWORDS : List (List Char) :=
  [strL "复制打开抖音", strL "复制此链接", strL "Copy and open Xiaohongshu",
   strL "打开抖音", strL "打开小红书", strL "点击链接"]

/-- The full noise-stripping loop of extract_message_parts: each
pattern is substituted away in list order, the result stripped after
each substitution. -/
def cleanNoise (s : List Char) : List Char :=
  NOISE_KEYWORDS.foldl (fun t kw => stepNoise kw t) s

/-- URL_PATTERN match attempt at a fixed position: the literal scheme
followed by at least one non-whitespace character, taken greedily. -/
def urlAt (s : List Char) : Option (List Char) :=
  if (strL "https://").isPrefixOf s then
    let run := (s.drop 8).takeWhile (fun c => !isSpace c)
    if run.isEmpty then none else some (strL "https://" ++ run)
  else if (strL "http://").isPrefixOf s then
    let run := (s.drop 7).takeWhile (fun c => !isSpace c)
    if run.isEmpty then none else some (strL "http://" ++ run)
  else none

/-- URL_PATTERN.search: the leftmost match, returned with its starting
position. -/
def searchUrl : List Char → Option (Nat × List Char)
  | [] => (urlAt []).map (fun u => (0, u))
  | c :: cs =>
    match urlAt (c :: cs) with
    | some u => some (0, u)
    | none => (searchUrl cs).map (fun p => (p.1 + 1, p.2))

/-- extract_message_parts of src/bot.py: find the first URL, strip and
noise-clean the text before it, and classify.  Returns
(title, url, needs_fetching) exactly as the source does. -/
def extract_message_parts (message : List Char) :
    Option (List Char) × Option (List Char) × Bool :=
  match searchUrl message with
  | none => (none, none, false)
  | some (i, url) =>
    let text_before_url := cleanNoise (trim (message.take i))
    if !text_before_url.isEmpty && text_before_url.length > 2 then
      (some text_before_url, some url, false)
    else
      (none, some url, true)

/-- The three message intents of the pipeline. -/
inductive MsgIntent where
  | titledLink : MsgIntent
  | bareLink : MsgIntent
  | plainText : MsgIntent
deriving DecidableEq

/-- The intent assigned by handle_message to a parsed message: no url
means plain text, a url that needs fetching means a bare link, and a
url with a title means a titled link. -/
def intentOf (message : List Char) : MsgIntent :=
  match extract_message_parts message with
  | (_, none, _) => .plainText
  | (_, some _, true) => .bareLink
  | (_, some _, false) => .titledLink

/-- Word-character class of the regex in is_twitter_url, modelled as
ASCII letters, digits and underscore. -/
def isWordChar (c : Char) : Bool := c.isAlpha || c.isDigit || c = '_'

/-- Attempt of the is_twitter_url pattern at a fixed position: one of
the two literal domains, a slash, a nonempty word-character run, the
literal status segment, and at least one digit. -/
def twMatchAt (s : List Char) : Bool :=
  let afterDomain : Option (List Char) :=
    if (strL "twitter.com").isPrefixOf s then some (s.drop 11)
    else if (strL "x.com").isPrefixOf s then some (s.drop 5)
    else none
  match afterDomain with
  | none => false
  | some r =>
    match r with
    | '/' :: r2 =>
      let w := r2.takeWhile isWordChar
      !w.isEmpty && (strL "/status/").isPrefixOf (r2.drop w.length) &&
        (match (r2.drop w.length).drop 8 with
         | d :: _ => d.isDigit
         | [] => false)
    | _ => false

/-- The re.search of is_twitter_url: true when the pattern matches at
some position of the url. -/
def twSearch : List Char → Bool
  | [] => twMatchAt []
  | c :: cs => twMatchAt (c :: cs) || twSearch cs

/-- is_twitter_url of src/bot.py. -/
def is_twitter_url (url : List Char) : Bool := twSearch url

/-- Modelled from the spec words of claim C5, for comparison with the
source predicate: the url is a social post exactly when its host is
one of the social domains and its path is a user segment of word
characters followed by a status segment of digits. -/
def isSocialPost_spec (url : List Char) : Bool :=
  let afterScheme : Option (List Char) :=
    if (strL "https://").isPrefixOf url then some (url.drop 8)
    else if (strL "http://").isPrefixOf url then some (url.drop 7)
    else none
  match afterScheme with
  | none => false
  | some r =>
    let host := r.takeWhile (fun c => c ≠ '/')
    (host = strL "twitter.com" || host = strL "x.com") &&
      (match r.drop host.length with
       | '/' :: r2 =>
         let user := r2.takeWhile isWordChar
         !user.isEmpty && (strL "/status/").isPrefixOf (r2.drop user.length) &&
           !((r2.drop user.length).drop 8).isEmpty &&
           ((r2.drop user.length).drop 8).all Char.isDigit
       | _ => false)

/-- Abstraction of the Twitter oembed JSON response after the
BeautifulSoup step of fetch_twitter_content: the html field, when
present, parses to an optional blockquote holding the text of each
paragraph element; the author_name field is an optional string. -/
structure TwitterOembed where
  html : Option (Option (List (List Char)))
  author_name : Option (List Char)

/-- The response-processing logic of fetch_twitter_content
(src/bot.py lines 87 to 104): join the paragraph texts of the
blockquote with single spaces and return the stripped join when the
join is nonempty; otherwise fall back to a string synthesized from the
author name; otherwise nothing. -/
def fetch_twitter_content_parse (d : TwitterOembed) : Option (List Char) :=
  let fromHtml : Option (List Char) :=
    match d.html with
    | some (some ps) =>
      let tweet_text := List.intercalate [' '] ps
      if !tweet_text.isEmpty then some (trim tweet_text) else none
    | _ => none
  match fromHtml with
  | some t => some t
  | none =>
    match d.author_name with
    | some a => some (strL "Tweet by " ++ a)
    | none => none

/-- fetch_twitter_content as a function of the oembed call outcome:
any call failure is caught and yields nothing. -/
def fetch_twitter_content_model (r : Except Unit TwitterOembed) : Option (List Char) :=
  match r with
  | .error _ => none
  | .ok d => fetch_twitter_content_parse d

/-- Abstraction of the parsed HTML page consulted by the generic
adapter of fetch_url_content: each field is the content attribute of
the corresponding tag when the tag is present with that attribute. -/
structure HtmlPage where
  og_description : Option (List Char)
  twitter_description : Option (List Char)
  meta_description : Option (List Char)
  og_title : Option (List Char)
  title_string : Option (List Char)

/-- The meta-tag fallback chain of fetch_url_content (src/bot.py lines
137 to 162): each candidate is used only when present and nonempty;
the page title is additionally stripped. -/
def metaChain (p : HtmlPage) : Option (List Char) :=
  let pick (o : Option (List Char)) : Option (List Char) :=
    match o with
    | some c => if !c.isEmpty then some c else none
    | none => none
  match pick p.og_description with
  | some c => some c
  | none =>
  match pick p.twitter_description with
  | some c => some c
  | none =>
  match pick p.meta_description with
  | some c => some c
  | none =>
  match pick p.og_title with
  | some c => some c
  | none =>
  match pick p.title_string with
  | some c => some (trim c)
  | none => none

/-- The generic adapter of fetch_url_content as a function of the HTTP
outcome: the try block catches every failure and yields nothing. -/
def fetch_generic (r : Except Unit HtmlPage) : Option (List Char) :=
  match r with
  | .error _ => none
  | .ok p => metaChain p

/-- fetch_url_content as a function of the url and of the outcomes of
its two external calls: a detected social post first consults the
Twitter adapter and falls through to the generic adapter when that
yields nothing or an empty string. -/
def fetch_url_content_plan (url : List Char)
    (twitterResult : Option (List Char)) (genericResult : Except Unit HtmlPage) :
    Option (List Char) :=
  if is_twitter_url url then
    match twitterResult with
    | some c => if !c.isEmpty then some c else fetch_generic genericResult
    | none => fetch_generic genericResult
  else fetch_generic genericResult

/-- The CATEGORIES list of src/bot.py. -/
def CATEGORIES : List (List Char) :=
  [strL "Vibe Coding", strL "Idea Collection", strL "Prompts Collection",
   strL "Personal Growth", strL "Fitness", strL "Good Design",
   strL "Mental Health"]

/-- Python substring membership test: pat occurs contiguously in s. -/
def hasSubstr (s pat : List Char) : Bool :=
  match s with
  | [] => pat.isEmpty
  | _ :: cs => pat.isPrefixOf s || hasSubstr cs pat

/-- Lowercase a string, modelling Python str.lower on the relevant
ASCII range. -/
def lower (s : List Char) : List Char := s.map lc

/-- The category validation and repair of get_category_from_claude
(src/bot.py lines 201 to 209): strip the response, accept an exact
domain member, otherwise take the first domain label related by
case-insensitive substring in either direction, otherwise the second
domain entry. -/
def repairCategory (response : List Char) : List Char :=
  let category := trim response
  if category ∈ CATEGORIES then category
  else
    match CATEGORIES.find?
        (fun c => hasSubstr (lower category) (lower c) ||
                  hasSubstr (lower c) (lower category)) with
    | some c => c
    | none => CATEGORIES.getD 1 []

/-- The category returned by get_category_from_claude when the model
call raises. -/
def claudeFailCategory : List Char := strL "Idea Collection"

/-- Python str.replace with the empty replacement, by leftmost
non-overlapping scan; the auxiliary fuel argument is the length of the
scanned string. -/
def removeAllAux (pat : List Char) : Nat → List Char → List Char
  | _, [] => []
  | 0, s => s
  | fuel + 1, c :: cs =>
    if pat.isPrefixOf (c :: cs) then removeAllAux pat fuel (cs.drop (pat.length - 1))
    else c :: removeAllAux pat fuel cs

/-- Python str.replace of pat with the empty string (pat nonempty in
every use of this development). -/
def removeAll (pat s : List Char) : List Char :=
  if pat.isEmpty then s else removeAllAux pat s.length s

/-- Python str.split on the newline character. -/
def splitLines : List Char → List (List Char)
  | [] => [[]]
  | c :: cs =>
    if c = '\n' then [] :: splitLines cs
    else
      match splitLines cs with
      | l :: ls => (c :: l) :: ls
      | [] => [[c]]

/-- The raw category text taken from a category line of the model
response: every occurrence of the marker removed, then stripped. -/
def rawCategoryOf (line : List Char) : List Char :=
  trim (removeAll (strL "CATEGORY:") line)

/-- The title text taken from a title line of the model response:
every occurrence of the marker removed, then stripped. -/
def rawTitleOf (line : List Char) : List Char :=
  trim (removeAll (strL "TITLE:") line)

/-- The category update applied by a category line of
get_title_and_category_from_claude: accept an exact domain member,
otherwise the first fuzzy match, otherwise keep the previous value. -/
def updateCategory (cat old : List Char) : List Char :=
  if cat ∈ CATEGORIES then cat
  else
    match CATEGORIES.find?
        (fun c => hasSubstr (lower cat) (lower c) ||
                  hasSubstr (lower c) (lower cat)) with
    | some c => c
    | none => old

/-- Processing of one response line by
get_title_and_category_from_claude: a title line overwrites the title,
otherwise a category line updates the category, otherwise nothing. -/
def processLine (acc : List Char × List Char) (line : List Char) :
    List Char × List Char :=
  if (strL "TITLE:").isPrefixOf line then
    (rawTitleOf line, acc.2)
  else if (strL "CATEGORY:").isPrefixOf line then
    (acc.1, updateCategory (rawCategoryOf line) acc.2)
  else acc

/-- The response parsing of get_title_and_category_from_claude
(src/bot.py lines 247 to 267): strip the response, split on newlines,
and process each line in order starting from the defaults. -/
def get_title_and_category_from_claude_parse (response : List Char) :
    List Char × List Char :=
  (splitLines (trim response)).foldl processLine
    (strL "Untitled", strL "Idea Collection")

/-- The kind of model call made by handle_message for a message. -/
inductive EnrichCall where
  | titleAndCat : List Char → List Char → EnrichCall
  | catOnly : List Char → EnrichCall
deriving DecidableEq

/-- The enrichment call and stored content chosen by handle_message
(src/bot.py lines 334 to 355), as a function of the parsed message and
of the fetch outcome consulted in the bare-link branch: a message
without a url is enriched from its own text, a bare link from the
fetched content when that is nonempty and from a url hint otherwise,
and a titled link only has its title categorized; a link message
stores the url, a plain message stores its text. -/
def handle_message_plan (text : List Char) (fetchResult : Option (List Char)) :
    EnrichCall × List Char :=
  match extract_message_parts text with
  | (_, none, _) => (.titleAndCat text [], text)
  | (title, some url, needs_fetching) =>
    if needs_fetching then
      match fetchResult with
      | some content =>
        if !content.isEmpty then (.titleAndCat content url, url)
        else (.titleAndCat (strL "URL: " ++ url) url, url)
      | none => (.titleAndCat (strL "URL: " ++ url) url, url)
    else (.catOnly (title.getD []), url)

/-- t occurs contiguously inside s. -/
def Within (t s : List Char) : Prop := ∃ l r, s = l ++ t ++ r

/-- A case-insensitive occurrence of kw starts at some position of t. -/
def OccursCI (kw t : List Char) : Prop := ∃ j, ciStarts kw (t.drop j) = true

/-- Wellformedness of a noise keyword: nonempty, with a head that no
whitespace character can match case-insensitively. -/
def kwOK : List Char → Bool
  | [] => false
  | c :: _ => !isSpace (lc c)

/-- The noise loop over an arbitrary keyword list; cleanNoise is this
chain over NOISE_KEYWORDS. -/
def chainNoise (kws : List (List Char)) (s : List Char) : List Char :=
  kws.foldl (fun t kw => stepNoise kw t) s

/-- The leftmost-match property of searchUrl: the returned position
carries a match, and no earlier position does. -/
theorem searchUrl_spec : ∀ (s : List Char) (i : Nat) (u : List Char),
    searchUrl s = some (i, u) →
    urlAt (s.drop i) = some u ∧ ∀ j, j < i → urlAt (s.drop j) = none := by
  intro s
  induction s with
  | nil =>
    intro i u h
    have hz : urlAt ([] : List Char) = none := by decide
    simp [searchUrl, hz] at h
  | cons c cs ih =>
    intro i u h
    simp only [searchUrl] at h
    cases hc : urlAt (c :: cs) with
    | some u0 =>
      rw [hc] at h
      obtain ⟨hi, hu⟩ : i = 0 ∧ u0 = u := by
        constructor <;> [skip; skip] <;> cases h <;> rfl
      subst hi
      subst hu
      exact ⟨hc, by omega⟩
    | none =>
      rw [hc] at h
      cases hs : searchUrl cs with
      | none => rw [hs] at h; simp at h
      | some p =>
        rw [hs] at h
        simp only [Option.map_some] at h
        obtain ⟨hi, hu⟩ : i = p.1 + 1 ∧ p.2 = u := by
          cases h
          exact ⟨rfl, rfl⟩
        subst hi
        subst hu
        obtain ⟨h1, h2⟩ := ih p.1 p.2 (by rw [hs])
        refine ⟨h1, ?_⟩
        intro j hj
        cases j with
        | zero => exact hc
        | succ j0 => exact h2 j0 (by omega)

/-- C1: for every input message containing a URL token, parse takes
the text strictly before the first URL match, strips noise and
surrounding whitespace, and returns a titled link when the cleaned
prefix is longer than 2 characters and a bare link otherwise; a
message with no URL token yields plain text with no title and no
url. -/
theorem extract_message_parts_classification (msg : List Char) :
    (searchUrl msg = none → extract_message_parts msg = (none, none, false)) ∧
    (∀ i url, searchUrl msg = some (i, url) →
      (2 < (cleanNoise (trim (msg.take i))).length →
        extract_message_parts msg =
          (some (cleanNoise (trim (msg.take i))), some url, false)) ∧
      ((cleanNoise (trim (msg.take i))).length ≤ 2 →
        extract_message_parts msg = (none, some url, true))) := by
  constructor
  · intro h
    simp [extract_message_parts, h]
  · intro i url h
    constructor
    · intro hl
      have hne : (cleanNoise (trim (msg.take i))).isEmpty = false := by
        cases hcn : cleanNoise (trim (msg.take i)) with
        | nil => rw [hcn] at hl; simp at hl
        | cons a as => simp
      simp [extract_message_parts, h, hne, hl]
    · intro hl
      have hcond : (!(cleanNoise (trim (msg.take i))).isEmpty &&
          decide ((cleanNoise (trim (msg.take i))).length > 2)) = false := by
        have : decide ((cleanNoise (trim (msg.take i))).length > 2) = false := by
          simp; omega
        simp [this]
      simp only [extract_message_parts, h]
      rw [hcond]
      simp

/-- Concrete instance of the C1 classification theorem. -/
theorem extract_message_parts_classification_witness :
    extract_message_parts (strL "hello https://a.io/x") =
      (some (strL "hello"), some (strL "https://a.io/x"), false) := by
  have h := ((extract_message_parts_classification (strL "hello https://a.io/x")).2
    6 (strL "https://a.io/x") (by decide)).1 (by decide)
  have e : cleanNoise (trim ((strL "hello https://a.io/x").take 6)) = strL "hello" := by decide
  rw [e] at h
  exact h

/-- C4: the ParsedMessage invariants: the url field is present exactly
when the intent is a titled or a bare link, the title field is present
exactly when the intent is a titled link, exactly one intent is
assigned, and the url used is the first URL-looking substring: it
matches at its position and no earlier position matches. -/
theorem parsed_message_invariants (msg : List Char) :
    ((extract_message_parts msg).2.1.isSome = true ↔
      intentOf msg = .titledLink ∨ intentOf msg = .bareLink) ∧
    ((extract_message_parts msg).1.isSome = true ↔ intentOf msg = .titledLink) ∧
    (∃! it : MsgIntent, intentOf msg = it) ∧
    (∀ i url, searchUrl msg = some (i, url) →
      (extract_message_parts msg).2.1 = some url ∧
      urlAt (msg.drop i) = some url ∧
      ∀ j, j < i → urlAt (msg.drop j) = none) := by
  refine ⟨?_, ?_, ⟨intentOf msg, rfl, fun y hy => hy.symm⟩, ?_⟩
  · cases hs : searchUrl msg with
    | none => simp [extract_message_parts, intentOf, hs]
    | some p =>
      obtain ⟨i, url⟩ := p
      simp only [extract_message_parts, intentOf, hs]
      split <;> simp
  · cases hs : searchUrl msg with
    | none => simp [extract_message_parts, intentOf, hs]
    | some p =>
      obtain ⟨i, url⟩ := p
      simp only [extract_message_parts, intentOf, hs]
      split <;> simp
  · intro i url h
    obtain ⟨h1, h2⟩ := searchUrl_spec msg i url h
    refine ⟨?_, h1, h2⟩
    simp only [extract_message_parts, h]
    split <;> simp

/-- Concrete instance of the C4 invariants theorem. -/
theorem parsed_message_invariants_witness :
    (extract_message_parts (strL "x https://a.io/p and https://b.io/q")).2.1 =
      some (strL "https://a.io/p") ∧
    ∀ j, j < 2 → urlAt ((strL "x https://a.io/p and https://b.io/q").drop j) = none := by
  have h := (parsed_message_invariants (strL "x https://a.io/p and https://b.io/q")).2.2.2
    2 (strL "https://a.io/p") (by decide)
  exact ⟨h.1, h.2.2⟩

/-- The category repair always lands in the domain. -/
theorem repairCategory_mem (response : List Char) :
    repairCategory response ∈ CATEGORIES := by
  unfold repairCategory
  dsimp only
  split
  · assumption
  · split
    · exact List.mem_of_find?_eq_some (by assumption)
    · decide

/-- The per-line category update stays in the domain. -/
theorem updateCategory_mem (cat old : List Char) (h : old ∈ CATEGORIES) :
    updateCategory cat old ∈ CATEGORIES := by
  unfold updateCategory
  split
  · assumption
  · split
    · exact List.mem_of_find?_eq_some (by assumption)
    · exact h

/-- The line fold of the response parser keeps the category component
in the domain. -/
theorem foldl_processLine_cat_mem (lines : List (List Char)) :
    ∀ acc : List Char × List Char, acc.2 ∈ CATEGORIES →
      (lines.foldl processLine acc).2 ∈ CATEGORIES := by
  induction lines with
  | nil => intro acc h; exact h
  | cons l ls ih =>
    intro acc h
    simp only [List.foldl_cons]
    apply ih
    unfold processLine
    split
    · exact h
    · split
      · exact updateCategory_mem _ _ h
      · exact h

/-- C3: every category returned by the two enrichment entry points is
a member of the closed category domain; an exact (stripped) match is
used as-is, and the failure fallback is the second domain entry. -/
theorem category_domain_membership (response : List Char) :
    repairCategory response ∈ CATEGORIES ∧
    (trim response ∈ CATEGORIES → repairCategory response = trim response) ∧
    (get_title_and_category_from_claude_parse response).2 ∈ CATEGORIES ∧
    claudeFailCategory ∈ CATEGORIES ∧
    claudeFailCategory = CATEGORIES.getD 1 [] := by
  refine ⟨repairCategory_mem response, ?_, ?_, by decide, by decide⟩
  · intro h
    unfold repairCategory
    simp [h]
  · exact foldl_processLine_cat_mem _ _ (by decide)

/-- Concrete instance of the C3 membership theorem. -/
theorem category_domain_membership_witness :
    repairCategory (strL " Fitness ") = trim (strL " Fitness ") :=
  (category_domain_membership (strL " Fitness ")).2.1 (by decide)

/-- C2 counterexample: for the response with two title lines the
parser returns the text of the second (last) title line, not that of
the first, refuting the first-line reading of the claim. -/
theorem title_last_line_wins_counterexample :
    get_title_and_category_from_claude_parse (strL "TITLE: A\nTITLE: B") =
      (strL "B", strL "Idea Collection") ∧
    strL "B" ≠ strL "A" := by decide

/-- The title component is unchanged by lines that do not begin with
the title marker. -/
theorem foldl_processLine_title_skip (lines : List (List Char)) :
    ∀ acc : List Char × List Char,
      (∀ l ∈ lines, (strL "TITLE:").isPrefixOf l = false) →
      (lines.foldl processLine acc).1 = acc.1 := by
  induction lines with
  | nil => intro acc _; rfl
  | cons l ls ih =>
    intro acc h
    simp only [List.foldl_cons]
    rw [ih _ (fun x hx => h x (List.mem_cons_of_mem l hx))]
    unfold processLine
    rw [h l (List.mem_cons_self l ls)]
    simp only [Bool.false_eq_true, if_false]
    split
    · rfl
    · rfl

/-- The category component is unchanged by lines that do not begin
with the category marker. -/
theorem foldl_processLine_cat_skip (lines : List (List Char)) :
    ∀ acc : List Char × List Char,
      (∀ l ∈ lines, (strL "CATEGORY:").isPrefixOf l = false) →
      (lines.foldl processLine acc).2 = acc.2 := by
  induction lines with
  | nil => intro acc _; rfl
  | cons l ls ih =>
    intro acc h
    simp only [List.foldl_cons]
    rw [ih _ (fun x hx => h x (List.mem_cons_of_mem l hx))]
    unfold processLine
    split
    · rfl
    · rw [h l (List.mem_cons_self l ls)]
      simp

/-- C2 as amended: lines are processed in order with later marker
lines overwriting earlier results, so the last title line supplies the
title; the concrete two-line response parses to its title and
category, and a response without any category line keeps the default
category together with the parsed title. -/
theorem claude_response_line_parsing :
    (get_title_and_category_from_claude_parse
        (strL "TITLE: Hello\nCATEGORY: Good Design") =
      (strL "Hello", strL "Good Design")) ∧
    (∀ response, (∀ l ∈ splitLines (trim response),
        (strL "CATEGORY:").isPrefixOf l = false) →
      (get_title_and_category_from_claude_parse response).2 =
        strL "Idea Collection") ∧
    (∀ (lines : List (List Char)) (acc : List Char × List Char) (l : List Char),
      (strL "TITLE:").isPrefixOf l = true →
      ((lines ++ [l]).foldl processLine acc).1 = rawTitleOf l) := by
  refine ⟨by decide, ?_, ?_⟩
  · intro response h
    exact foldl_processLine_cat_skip _ _ h
  · intro lines acc l hl
    rw [List.foldl_append]
    simp only [List.foldl_cons, List.foldl_nil]
    unfold processLine
    rw [hl]
    simp

/-- Concrete instance of the C2 line-parsing theorem. -/
theorem claude_response_line_parsing_witness :
    (get_title_and_category_from_claude_parse (strL "TITLE: Solo")).2 =
      strL "Idea Collection" :=
  claude_response_line_parsing.2.1 (strL "TITLE: Solo") (by decide)

/-- C10: the title of a title line (and the raw category of a
category line) is computed by removing every occurrence of the marker
anywhere in the line and stripping, not only the leading marker; on
the two-marker line both markers disappear. -/
theorem title_marker_replace_all :
    (∀ (acc : List Char × List Char) (line : List Char),
      (strL "TITLE:").isPrefixOf line = true →
      (processLine acc line).1 = trim (removeAll (strL "TITLE:") line)) ∧
    (∀ (acc : List Char × List Char) (line : List Char),
      (strL "TITLE:").isPrefixOf line = false →
      (strL "CATEGORY:").isPrefixOf line = true →
      (processLine acc line).2 =
        updateCategory (trim (removeAll (strL "CATEGORY:") line)) acc.2) ∧
    (get_title_and_category_from_claude_parse (strL "TITLE: A TITLE: B") =
      (strL "A  B", strL "Idea Collection")) ∧
    strL "A  B" ≠ strL "A TITLE: B" := by
  refine ⟨?_, ?_, by decide, by decide⟩
  · intro acc line h
    unfold processLine
    rw [h]
    simp [rawTitleOf]
  · intro acc line h1 h2
    unfold processLine
    rw [h1, h2]
    simp [rawCategoryOf]

/-- Concrete instance of the C10 replace-all theorem. -/
theorem title_marker_replace_all_witness :
    (processLine (strL "Untitled", strL "Idea Collection")
        (strL "TITLE: A TITLE: B")).1 =
      trim (removeAll (strL "TITLE:") (strL "TITLE: A TITLE: B")) :=
  title_marker_replace_all.1 (strL "Untitled", strL "Idea Collection")
    (strL "TITLE: A TITLE: B") (by decide)

/-- The search of the social-post pattern succeeds exactly when the
pattern matches at some position. -/
theorem twSearch_iff (s : List Char) :
    twSearch s = true ↔ ∃ i, twMatchAt (s.drop i) = true := by
  induction s with
  | nil =>
    constructor
    · intro h; exact ⟨0, h⟩
    · intro ⟨i, hi⟩
      simpa [List.drop_nil] using hi
  | cons c cs ih =>
    constructor
    · intro h
      rcases Bool.or_eq_true_iff.1 h with h0 | h1
      · exact ⟨0, h0⟩
      · obtain ⟨i, hi⟩ := ih.1 h1
        exact ⟨i + 1, hi⟩
    · intro ⟨i, hi⟩
      cases i with
      | zero => exact Bool.or_eq_true_iff.2 (Or.inl hi)
      | succ i0 => exact Bool.or_eq_true_iff.2 (Or.inr (ih.2 ⟨i0, hi⟩))

/-- C5 counterexample: a url whose host is not a social domain is
nevertheless classified as a social post, because the detector scans
for the pattern anywhere in the url rather than at its host. -/
theorem is_twitter_url_host_counterexample :
    is_twitter_url (strL "https://notx.com/alice/status/123") = true ∧
    isSocialPost_spec (strL "https://notx.com/alice/status/123") = false := by decide

/-- C5 as amended: the detector classifies a url as a short-form
social post exactly when the domain-user-status-digits pattern matches
at some position of the url; the two concrete examples of the claim
hold. -/
theorem is_twitter_url_substring_match (url : List Char) :
    (is_twitter_url url = true ↔ ∃ i, twMatchAt (url.drop i) = true) ∧
    is_twitter_url (strL "https://x.com/alice/status/123456") = true ∧
    is_twitter_url (strL "https://example.com/alice") = false :=
  ⟨twSearch_iff url, by decide, by decide⟩

/-- C6 counterexample: with no html field and an author name, the
adapter synthesizes a string beginning with Tweet by, not with Post
by as the claim states. -/
theorem tweet_by_author_counterexample :
    fetch_twitter_content_parse ⟨none, some (strL "alice")⟩ =
      some (strL "Tweet by alice") ∧
    strL "Tweet by alice" ≠ strL "Post by alice" := by decide

/-- C6 as amended: whenever the html path yields no paragraph text
(no html field, no blockquote, or an empty joined paragraph string)
and an author name is present, the adapter returns the synthesized
Tweet by author string. -/
theorem tweet_author_fallback (d : TwitterOembed) (a : List Char)
    (hh : ∀ ps, d.html = some (some ps) → List.intercalate [' '] ps = [])
    (ha : d.author_name = some a) :
    fetch_twitter_content_parse d = some (strL "Tweet by " ++ a) := by
  unfold fetch_twitter_content_parse
  cases hd : d.html with
  | none => simp [ha]
  | some ob =>
    cases ob with
    | none => simp [ha]
    | some ps =>
      have he := hh ps hd
      simp [he, ha]

/-- Concrete instance of the C6 fallback theorem. -/
theorem tweet_author_fallback_witness :
    fetch_twitter_content_parse ⟨some (some [[]]), some (strL "bob")⟩ =
      some (strL "Tweet by " ++ strL "bob") :=
  tweet_author_fallback ⟨some (some [[]]), some (strL "bob")⟩ (strL "bob")
    (by intro ps h; simp at h; subst h; decide) rfl

/-- C8 counterexample: a bare-link message whose fetch returns a
present but empty string is enriched from the url hint, not from the
(present) fetched content as the claim states. -/
theorem bare_link_empty_content_counterexample :
    handle_message_plan (strL "https://example.com/page") (some []) =
      (.titleAndCat (strL "URL: https://example.com/page")
        (strL "https://example.com/page"), strL "https://example.com/page") ∧
    EnrichCall.titleAndCat (strL "URL: https://example.com/page")
        (strL "https://example.com/page") ≠
      EnrichCall.titleAndCat [] (strL "https://example.com/page") := by decide

/-- C8 as amended: for a message parsed as a bare link, nonempty
fetched content is passed to the title-and-category call, while
absent or empty fetched content degrades to a url hint; in both cases
the stored content is the url itself. -/
theorem bare_link_pipeline_plan (text url : List Char)
    (t0 : Option (List Char)) (fetched : Option (List Char))
    (h : extract_message_parts text = (t0, some url, true)) :
    (∀ c, fetched = some c → c ≠ [] →
      handle_message_plan text fetched = (.titleAndCat c url, url)) ∧
    ((fetched = none ∨ fetched = some []) →
      handle_message_plan text fetched =
        (.titleAndCat (strL "URL: " ++ url) url, url)) := by
  unfold handle_message_plan
  rw [h]
  constructor
  · intro c hc hne
    subst hc
    have : c.isEmpty = false := by
      cases c with
      | nil => exact absurd rfl hne
      | cons a as => rfl
    simp [this]
  · intro hcase
    rcases hcase with hc | hc
    · subst hc; simp
    · subst hc; simp

/-- Concrete instance of the C8 pipeline theorem. -/
theorem bare_link_pipeline_plan_witness :
    handle_message_plan (strL "https://a.io/x") (some (strL "page text")) =
      (.titleAndCat (strL "page text") (strL "https://a.io/x"),
       strL "https://a.io/x") :=
  (bare_link_pipeline_plan (strL "https://a.io/x") (strL "https://a.io/x")
    none (some (strL "page text")) (by decide)).1 (strL "page text") rfl
    (by decide)

/-- C9: the fetch layer is modelled as a total function of the
outcomes of its external calls, so it never raises; a failed generic
call yields absent content, a failed social-embed call yields absent
content from the social adapter, and for a detected social post a
failed or empty social-embed result falls through to the generic
adapter instead of returning absent immediately. -/
theorem fetch_never_raises_fallback :
    (∀ e : Unit, fetch_generic (.error e) = none) ∧
    (∀ e : Unit, fetch_twitter_content_model (.error e) = none) ∧
    (∀ (url : List Char) (g : Except Unit HtmlPage),
      is_twitter_url url = true →
      fetch_url_content_plan url none g = fetch_generic g) ∧
    (∀ (url : List Char) (g : Except Unit HtmlPage),
      is_twitter_url url = true →
      fetch_url_content_plan url (some []) g = fetch_generic g) ∧
    (∀ url : List Char, fetch_url_content_plan url none (.error ()) = none) := by
  refine ⟨fun e => rfl, fun e => rfl, ?_, ?_, ?_⟩
  · intro url g h
    simp [fetch_url_content_plan, h]
  · intro url g h
    simp [fetch_url_content_plan, h]
  · intro url
    unfold fetch_url_content_plan
    split
    · rfl
    · rfl

/-- Concrete instance of the C9 fallback theorem. -/
theorem fetch_never_raises_fallback_witness :
    fetch_url_content_plan (strL "https://x.com/a/status/1") none
        (.ok ⟨some (strL "d"), none, none, none, none⟩) =
      fetch_generic (.ok ⟨some (strL "d"), none, none, none, none⟩) :=
  fetch_never_raises_fallback.2.2.1 (strL "https://x.com/a/status/1")
    (.ok ⟨some (strL "d"), none, none, none, none⟩) (by decide)

/-- Every whitespace character has a code point at most 32 or at
least 133. -/
theorem space_toNat (c : Char) (h : isSpace c = true) :
    c.toNat ≤ 32 ∨ 133 ≤ c.toNat := by
  unfold isSpace at h
  simp only [Bool.or_eq_true, Bool.and_eq_true, decide_eq_true_eq] at h
  omega

/-- Lowercasing fixes every whitespace character. -/
theorem lc_space_fixed (c : Char) (h : isSpace c = true) : lc c = c := by
  have hb := space_toNat c h
  have h2 : ¬(65 ≤ c.toNat ∧ c.toNat ≤ 90) := by omega
  simp [lc, h2]

/-- A whitespace character cannot match, case-insensitively, a
keyword head whose lowercase form is not whitespace. -/
theorem space_lc_ne (c k0 : Char) (hc : isSpace c = true)
    (hk : isSpace (lc k0) = false) : lc c ≠ lc k0 := by
  intro he
  rw [lc_space_fixed c hc] at he
  rw [he] at hc
  rw [hc] at hk
  cases hk

/-- The dollar-anchor test holds on every newline-free tail. -/
theorem tailOk_of_no_nl (t : List Char) (h : '\n' ∉ t) : tailOk t = true := by
  induction t with
  | nil => rfl
  | cons c cs ih =>
    have hc : ¬ c = '\n' := by
      intro he
      exact h (by rw [he]; exact List.mem_cons_self _ _)
    show (if c = '\n' then cs.isEmpty else tailOk cs) = true
    rw [if_neg hc]
    exact ih (fun hm => h (List.mem_cons_of_mem c hm))

/-- A case-insensitive prefix match extends along an appended tail. -/
theorem ciStarts_append (kw : List Char) : ∀ u v : List Char,
    ciStarts kw u = true → ciStarts kw (u ++ v) = true := by
  induction kw with
  | nil => intro u v _; rfl
  | cons k ks ih =>
    intro u v h
    cases u with
    | nil => simp [ciStarts] at h
    | cons c cs =>
      simp only [List.cons_append]
      unfold ciStarts at h ⊢
      simp only [Bool.and_eq_true] at h ⊢
      exact ⟨h.1, ih cs v h.2⟩

/-- dropWhile is a drop at some index. -/
theorem dropWhile_eq_drop (p : Char → Bool) (u : List Char) :
    ∃ k, u.dropWhile p = u.drop k := by
  induction u with
  | nil => exact ⟨0, rfl⟩
  | cons c cs ih =>
    by_cases hc : p c = true
    · obtain ⟨k, hk⟩ := ih
      exact ⟨k + 1, by simp [List.dropWhile_cons, hc, hk]⟩
    · rw [Bool.not_eq_true] at hc
      exact ⟨0, by simp [List.dropWhile_cons, hc]⟩

/-- dropWhile removes a prefix of the list. -/
theorem dropWhile_suffix_decomp (p : Char → Bool) (u : List Char) :
    ∃ l, u = l ++ u.dropWhile p := by
  induction u with
  | nil => exact ⟨[], rfl⟩
  | cons c cs ih =>
    by_cases hc : p c = true
    · obtain ⟨l, hl⟩ := ih
      refine ⟨c :: l, ?_⟩
      simp only [List.dropWhile_cons, hc, if_true, List.cons_append]
      rw [← hl]
    · rw [Bool.not_eq_true] at hc
      refine ⟨[], ?_⟩
      simp [List.dropWhile_cons, hc]

/-- The right strip keeps a prefix of the string. -/
theorem rtrim_decomp (u : List Char) : ∃ r, u = rtrim u ++ r := by
  obtain ⟨l, hl⟩ := dropWhile_suffix_decomp isSpace u.reverse
  refine ⟨l.reverse, ?_⟩
  unfold rtrim
  calc u = u.reverse.reverse := (List.reverse_reverse u).symm
  _ = (l ++ u.reverse.dropWhile isSpace).reverse := by rw [← hl]
  _ = (u.reverse.dropWhile isSpace).reverse ++ l.reverse := by rw [List.reverse_append]

/-- The head of a dropWhile result fails the predicate. -/
theorem dropWhile_head_not (p : Char → Bool) : ∀ (u : List Char) (c : Char)
    (w : List Char), u.dropWhile p = c :: w → p c = false := by
  intro u
  induction u with
  | nil => intro c w h; cases h
  | cons a as ih =>
    intro c w h
    by_cases ha : p a = true
    · rw [List.dropWhile_cons, if_pos ha] at h
      exact ih c w h
    · rw [Bool.not_eq_true] at ha
      rw [List.dropWhile_cons, if_neg (by simp [ha])] at h
      cases h
      exact ha

/-- dropWhile is idempotent. -/
theorem dropWhile_idem (p : Char → Bool) (u : List Char) :
    (u.dropWhile p).dropWhile p = u.dropWhile p := by
  cases hd : u.dropWhile p with
  | nil => rfl
  | cons c w =>
    have hc := dropWhile_head_not p u c w hd
    simp [List.dropWhile_cons, hc]

/-- The right strip is idempotent. -/
theorem rtrim_idem (u : List Char) : rtrim (rtrim u) = rtrim u := by
  unfold rtrim
  rw [List.reverse_reverse, dropWhile_idem]

/-- The head of a stripped string is not whitespace. -/
theorem trim_fix_head (u : List Char) (c : Char) (w : List Char)
    (h : trim u = c :: w) : isSpace c = false := by
  obtain ⟨r, hr⟩ := rtrim_decomp (ltrim u)
  have hr2 : ltrim u = trim u ++ r := hr
  rw [h] at hr2
  have hr3 : u.dropWhile isSpace = c :: (w ++ r) := by
    have : ltrim u = u.dropWhile isSpace := rfl
    rw [← this, hr2]
    simp
  exact dropWhile_head_not isSpace u c (w ++ r) hr3

/-- The strip is idempotent. -/
theorem trim_idem (u : List Char) : trim (trim u) = trim u := by
  have h1 : ltrim (trim u) = trim u := by
    cases h : trim u with
    | nil => rfl
    | cons c w =>
      have hc := trim_fix_head u c w h
      show (c :: w).dropWhile isSpace = c :: w
      simp [List.dropWhile_cons, hc]
  show rtrim (ltrim (trim u)) = trim u
  rw [h1]
  show rtrim (rtrim (ltrim u)) = rtrim (ltrim u)
  exact rtrim_idem _

/-- Containment is reflexive. -/
theorem within_refl (t : List Char) : Within t t := ⟨[], [], by simp⟩

/-- Containment is transitive. -/
theorem within_trans (a b c : List Char) (h1 : Within a b) (h2 : Within b c) :
    Within a c := by
  obtain ⟨l1, r1, rfl⟩ := h2
  obtain ⟨l2, r2, rfl⟩ := h1
  exact ⟨l1 ++ l2, r2 ++ r1, by simp⟩

/-- A take is contained in the list. -/
theorem within_take (u : List Char) (m : Nat) : Within (u.take m) u :=
  ⟨[], u.drop m, by simp⟩

/-- Membership transfers out of a containment. -/
theorem mem_of_within (t s : List Char) (c : Char) (hw : Within t s)
    (hm : c ∈ t) : c ∈ s := by
  obtain ⟨l, r, rfl⟩ := hw
  simp [hm]

/-- The strip of a string is contained in it. -/
theorem trim_within (u : List Char) : Within (trim u) u := by
  obtain ⟨l, hl⟩ := dropWhile_suffix_decomp isSpace u
  obtain ⟨r, hr⟩ := rtrim_decomp (ltrim u)
  refine ⟨l, r, ?_⟩
  calc u = l ++ u.dropWhile isSpace := hl
  _ = l ++ ltrim u := rfl
  _ = l ++ (rtrim (ltrim u) ++ r) := by rw [← hr]
  _ = l ++ (trim u ++ r) := rfl
  _ = l ++ trim u ++ r := by simp

/-- An occurrence inside a contained segment is an occurrence in the
surrounding string. -/
theorem occurs_within (kw t s : List Char) (hw : Within t s)
    (ho : OccursCI kw t) : OccursCI kw s := by
  obtain ⟨l, r, rfl⟩ := hw
  obtain ⟨j, hj⟩ := ho
  by_cases hkw : kw = []
  · subst hkw
    exact ⟨0, rfl⟩
  · have hjle : j ≤ t.length := by
      by_contra hgt
      push_neg at hgt
      have hnil : t.drop j = [] := List.drop_eq_nil_of_le (le_of_lt hgt)
      rw [hnil] at hj
      cases kw with
      | nil => exact hkw rfl
      | cons a b => simp [ciStarts] at hj
    refine ⟨l.length + j, ?_⟩
    have h1 : (l ++ (t ++ r)).drop (l.length + j) = (t ++ r).drop j := by
      rw [← List.drop_drop, List.drop_left]
    have h2 : (t ++ r).drop j = t.drop j ++ r := List.drop_append_of_le_length hjle
    have h3 : (l ++ t ++ r).drop (l.length + j) = t.drop j ++ r := by
      rw [List.append_assoc, h1, h2]
    rw [h3]
    exact ciStarts_append kw (t.drop j) r hj

/-- An occurrence in a suffix is an occurrence in the string. -/
theorem occurs_drop (kw t : List Char) (m : Nat)
    (h : OccursCI kw (t.drop m)) : OccursCI kw t := by
  obtain ⟨j, hj⟩ := h
  refine ⟨m + j, ?_⟩
  rw [List.drop_drop] at hj
  exact hj

/-- A newline-free string does not end with a newline. -/
theorem endsWithNl_false_of_no_nl : ∀ s : List Char, '\n' ∉ s →
    endsWithNl s = false := by
  intro s
  induction s with
  | nil => intro _; rfl
  | cons c cs ih =>
    intro h
    cases cs with
    | nil =>
      have hc : ¬ c = '\n' := by
        intro he
        exact h (by rw [he]; exact List.mem_cons_self _ _)
      simp [endsWithNl, hc]
    | cons d ds =>
      have h2 : '\n' ∉ d :: ds := fun hm => h (List.mem_cons_of_mem c hm)
      show endsWithNl (d :: ds) = false
      exact ih h2

/-- A core match yields an occurrence at the same position or later. -/
theorem occurs_of_matchCore (kw u : List Char) (h : matchCore kw u = true) :
    OccursCI kw u := by
  unfold matchCore at h
  simp only [Bool.and_eq_true] at h
  obtain ⟨k, hk⟩ := dropWhile_eq_drop isSpace u
  refine ⟨k, ?_⟩
  rw [← hk]
  exact h.1

/-- A full pattern match yields an occurrence of the keyword. -/
theorem occurs_of_matchAt (kw u : List Char) (h : matchAt kw u = true) :
    OccursCI kw u := by
  unfold matchAt at h
  rcases Bool.or_eq_true_iff.1 h with h1 | h2
  · exact occurs_of_matchCore kw u h1
  · cases u with
    | nil => simp at h2
    | cons c cs =>
      simp only [Bool.and_eq_true] at h2
      obtain ⟨j, hj⟩ := occurs_of_matchCore kw cs h2.2
      exact ⟨j + 1, hj⟩

/-- findNoise returns nothing exactly when no position matches. -/
theorem findNoise_none_iff (kw : List Char) : ∀ t : List Char,
    findNoise kw t = none ↔ ∀ j, matchAt kw (t.drop j) = false := by
  intro t
  induction t with
  | nil =>
    constructor
    · intro h j
      simp only [findNoise] at h
      by_cases hm : matchAt kw [] = true
      · rw [if_pos hm] at h; cases h
      · rw [Bool.not_eq_true] at hm
        simpa [List.drop_nil] using hm
    · intro h
      have h0 : matchAt kw [] = false := by simpa using h 0
      simp only [findNoise, h0, Bool.false_eq_true, if_false]
  | cons c cs ih =>
    constructor
    · intro h j
      simp only [findNoise] at h
      by_cases hm : matchAt kw (c :: cs) = true
      · rw [if_pos hm] at h; cases h
      · rw [Bool.not_eq_true] at hm
        rw [if_neg (by rw [hm]; intro hc; cases hc)] at h
        cases j with
        | zero => exact hm
        | succ j0 =>
          have hnone : findNoise kw cs = none := by
            cases hf : findNoise kw cs with
            | none => rfl
            | some m => rw [hf] at h; cases h
          exact (ih.1 hnone) j0
    · intro h
      have h0 : matchAt kw (c :: cs) = false := by simpa using h 0
      simp only [findNoise, h0, Bool.false_eq_true, if_false]
      rw [ih.2 (fun j => h (j + 1))]
      rfl

/-- The position returned by findNoise matches, and no earlier
position does. -/
theorem findNoise_some_spec (kw : List Char) : ∀ (t : List Char) (m : Nat),
    findNoise kw t = some m →
    matchAt kw (t.drop m) = true ∧ ∀ j, j < m → matchAt kw (t.drop j) = false := by
  intro t
  induction t with
  | nil =>
    intro m h
    simp only [findNoise] at h
    by_cases hm : matchAt kw [] = true
    · rw [if_pos hm] at h
      cases h
      exact ⟨hm, by omega⟩
    · rw [Bool.not_eq_true] at hm
      rw [if_neg (by rw [hm]; intro hc; cases hc)] at h
      cases h
  | cons c cs ih =>
    intro m h
    simp only [findNoise] at h
    by_cases hm : matchAt kw (c :: cs) = true
    · rw [if_pos hm] at h
      cases h
      exact ⟨hm, by omega⟩
    · rw [Bool.not_eq_true] at hm
      rw [if_neg (by rw [hm]; intro hc; cases hc)] at h
      cases hf : findNoise kw cs with
      | none => rw [hf] at h; cases h
      | some m0 =>
        rw [hf] at h
        have hm0 : m0 + 1 = m := by injection h
        subst hm0
        obtain ⟨h1, h2⟩ := ih m0 hf
        refine ⟨h1, ?_⟩
        intro j hj
        cases j with
        | zero => exact hm
        | succ j0 => exact h2 j0 (by omega)

/-- Without an occurrence of the keyword there is no pattern match. -/
theorem findNoise_none_of_no_occurs (kw t : List Char)
    (h : ¬ OccursCI kw t) : findNoise kw t = none := by
  rw [findNoise_none_iff]
  intro j
  by_contra hm
  rw [Bool.not_eq_false] at hm
  exact h (occurs_drop kw t j (occurs_of_matchAt kw (t.drop j) hm))

/-- On a newline-free string, every occurrence of a wellformed
keyword gives a pattern match at the same position. -/
theorem matchAt_of_occurrence (kw s : List Char) (j : Nat)
    (hok : kwOK kw = true) (hnl : '\n' ∉ s)
    (hc : ciStarts kw (s.drop j) = true) : matchAt kw (s.drop j) = true := by
  have hnlj : '\n' ∉ s.drop j := fun hm => hnl (List.drop_subset _ _ hm)
  revert hc hnlj
  generalize s.drop j = u
  intro hc hnlj
  cases kw with
  | nil => cases hok
  | cons k0 ks =>
    cases u with
    | nil => simp [ciStarts] at hc
    | cons c cs =>
      have hcc : lc c = lc k0 := by
        unfold ciStarts at hc
        simp only [Bool.and_eq_true, decide_eq_true_eq] at hc
        exact hc.1
      have hk : isSpace (lc k0) = false := by
        unfold kwOK at hok
        simpa using hok
      have hcs : isSpace c = false := by
        by_contra hsp
        rw [Bool.not_eq_false] at hsp
        exact space_lc_ne c k0 hsp hk hcc
      unfold matchAt
      apply Bool.or_eq_true_iff.2
      left
      unfold matchCore
      have hdw : (c :: cs).dropWhile isSpace = c :: cs := by
        simp [List.dropWhile_cons, hcs]
      simp only [hdw, Bool.and_eq_true]
      exact ⟨hc, tailOk_of_no_nl _ (fun hm => hnlj (List.drop_subset _ _ hm))⟩

/-- On a newline-free string, one noise step leaves no occurrence of
its own keyword. -/
theorem stepNoise_no_occurs (kw s : List Char) (hok : kwOK kw = true)
    (hnl : '\n' ∉ s) : ¬ OccursCI kw (stepNoise kw s) := by
  intro hocc
  have hkw_ne : kw ≠ [] := by
    intro h
    rw [h] at hok
    cases hok
  unfold stepNoise subNoise at hocc
  cases hf : findNoise kw s with
  | none =>
    rw [hf] at hocc
    obtain ⟨j, hj⟩ := occurs_within kw (trim s) s (trim_within s) hocc
    have hm := matchAt_of_occurrence kw s j hok hnl hj
    have hnone := (findNoise_none_iff kw s).1 hf j
    rw [hm] at hnone
    cases hnone
  | some m =>
    rw [hf] at hocc
    rw [endsWithNl_false_of_no_nl s hnl] at hocc
    simp only [Bool.false_eq_true, if_false, List.append_nil] at hocc
    have hocc2 : OccursCI kw (s.take m) :=
      occurs_within kw (trim (s.take m)) (s.take m) (trim_within _) hocc
    obtain ⟨j, hj⟩ := hocc2
    have hjlt : j < m := by
      by_contra hge
      push_neg at hge
      have h0 : (s.take m).drop j = [] := by
        rw [List.drop_take]
        have hz : m - j = 0 := by omega
        rw [hz, List.take_zero]
      rw [h0] at hj
      cases kw with
      | nil => exact hkw_ne rfl
      | cons a b => simp [ciStarts] at hj
    have hcs : ciStarts kw (s.drop j) = true := by
      rw [List.drop_take] at hj
      have := ciStarts_append kw ((s.drop j).take (m - j)) ((s.drop j).drop (m - j)) hj
      rw [List.take_append_drop] at this
      exact this
    have hm2 := matchAt_of_occurrence kw s j hok hnl hcs
    have hfalse := (findNoise_some_spec kw s m hf).2 j hjlt
    rw [hm2] at hfalse
    cases hfalse

/-- On a newline-free string, one noise step keeps a contiguous
segment of the string. -/
theorem stepNoise_within (kw s : List Char) (hnl : '\n' ∉ s) :
    Within (stepNoise kw s) s := by
  unfold stepNoise subNoise
  cases hf : findNoise kw s with
  | none => exact trim_within s
  | some m =>
    rw [endsWithNl_false_of_no_nl s hnl]
    simp only [Bool.false_eq_true, if_false, List.append_nil]
    exact within_trans _ _ _ (trim_within _) (within_take s m)

/-- Unfolding of the noise chain on a cons. -/
theorem chainNoise_cons (k : List Char) (ks : List (List Char)) (s : List Char) :
    chainNoise (k :: ks) s = chainNoise ks (stepNoise k s) := rfl

/-- On a newline-free string the noise chain keeps a contiguous,
newline-free segment of the string. -/
theorem chain_within : ∀ (kws : List (List Char)) (s : List Char), '\n' ∉ s →
    Within (chainNoise kws s) s ∧ '\n' ∉ chainNoise kws s := by
  intro kws
  induction kws with
  | nil => intro s h; exact ⟨within_refl s, h⟩
  | cons kw ks ih =>
    intro s h
    have h1 : Within (stepNoise kw s) s := stepNoise_within kw s h
    have h2 : '\n' ∉ stepNoise kw s := fun hm => h (mem_of_within _ _ _ h1 hm)
    obtain ⟨h3, h4⟩ := ih (stepNoise kw s) h2
    rw [chainNoise_cons]
    exact ⟨within_trans _ _ _ h3 h1, h4⟩

/-- After a full pass of the noise chain over a newline-free string,
no keyword of the list occurs in the result. -/
theorem chain_no_occurs : ∀ (kws : List (List Char)) (s : List Char), '\n' ∉ s →
    (∀ kw ∈ kws, kwOK kw = true) →
    ∀ kw ∈ kws, ¬ OccursCI kw (chainNoise kws s) := by
  intro kws
  induction kws with
  | nil => intro s _ _ kw hkw; cases hkw
  | cons k0 ks ih =>
    intro s hnl hok kw hkw
    have hnl1 : '\n' ∉ stepNoise k0 s :=
      fun hm => hnl (mem_of_within _ _ _ (stepNoise_within k0 s hnl) hm)
    rw [chainNoise_cons]
    rcases List.mem_cons.1 hkw with rfl | hmem
    · have hno : ¬ OccursCI kw (stepNoise kw s) :=
        stepNoise_no_occurs kw s (hok kw hkw) hnl
      have hw : Within (chainNoise ks (stepNoise kw s)) (stepNoise kw s) :=
        (chain_within ks _ hnl1).1
      exact fun ho => hno (occurs_within _ _ _ hw ho)
    · exact ih (stepNoise k0 s) hnl1
        (fun x hx => hok x (List.mem_cons_of_mem _ hx)) kw hmem

/-- The result of a nonempty noise chain is stripped. -/
theorem chain_trimmed : ∀ (kws : List (List Char)) (s : List Char), kws ≠ [] →
    trim (chainNoise kws s) = chainNoise kws s := by
  intro kws
  induction kws with
  | nil => intro s h; cases h rfl
  | cons k0 ks ih =>
    intro s _
    rw [chainNoise_cons]
    cases ks with
    | nil =>
      show trim (trim (subNoise k0 s)) = trim (subNoise k0 s)
      exact trim_idem _
    | cons k1 ks2 => exact ih _ (by simp)

/-- A stripped string in which no keyword of the list occurs is a
fixed point of the noise chain. -/
theorem chain_fixed : ∀ (kws : List (List Char)) (u : List Char),
    (∀ kw ∈ kws, findNoise kw u = none) → trim u = u →
    chainNoise kws u = u := by
  intro kws
  induction kws with
  | nil => intro u _ _; rfl
  | cons k0 ks ih =>
    intro u hf ht
    rw [chainNoise_cons]
    have h0 : stepNoise k0 u = u := by
      unfold stepNoise subNoise
      rw [hf k0 (List.mem_cons_self _ _)]
      exact ht
    rw [h0]
    exact ih u (fun kw hk => hf kw (List.mem_cons_of_mem _ hk)) ht

/-- C7 counterexample: the full noise chain is not idempotent: on the
two-line message the first pass strips only the trailing line, and a
second pass then strips the leading keyword run that has become
line-final, so re-applying the chain changes the cleaned prefix. -/
theorem noise_chain_not_idempotent_counterexample :
    cleanNoise (cleanNoise (strL "复制打开抖音A\n点击链接B")) ≠
      cleanNoise (strL "复制打开抖音A\n点击链接B") ∧
    cleanNoise (strL "复制打开抖音A\n点击链接B") = strL "复制打开抖音A" ∧
    cleanNoise (strL "复制打开抖音A") = [] := by decide

/-- C7 as amended: the noise chain is idempotent on every newline-free
input: re-applying the full ordered filter chain to a cleaned
newline-free prefix returns it unchanged. -/
theorem noise_chain_idempotent_no_newline (s : List Char) (hnl : '\n' ∉ s) :
    cleanNoise (cleanNoise s) = cleanNoise s := by
  have hOK : ∀ kw ∈ NOISE_KEYWORDS, kwOK kw = true := by decide
  have hno := chain_no_occurs NOISE_KEYWORDS s hnl hOK
  have htr := chain_trimmed NOISE_KEYWORDS s (by simp [NOISE_KEYWORDS])
  have hfix : ∀ kw ∈ NOISE_KEYWORDS,
      findNoise kw (chainNoise NOISE_KEYWORDS s) = none :=
    fun kw hk => findNoise_none_of_no_occurs kw _ (hno kw hk)
  show chainNoise NOISE_KEYWORDS (chainNoise NOISE_KEYWORDS s) =
    chainNoise NOISE_KEYWORDS s
  exact chain_fixed NOISE_KEYWORDS _ hfix htr

/-- Concrete instance of the C7 idempotence theorem. -/
theorem noise_chain_idempotent_no_newline_witness :
    cleanNoise (cleanNoise (strL "abc, 复制打开抖音 xyz")) =
      cleanNoise (strL "abc, 复制打开抖音 xyz") :=
  noise_chain_idempotent_no_newline (strL "abc, 复制打开抖音 xyz") (by decide)
